import Mathlib

/-!
Verification of the tablet storage-engine header `src/yb/tablet/tablet.h`.

The header declares the tablet's concurrency, MVCC, read-point-registry,
flush-tracking and lifecycle surface.  Functions whose bodies appear inline
in the header (`TabletFlushStats`, the `ScopedReadOperation` constructors)
are embedded directly from that code; functions that are only declared in
the header are modelled from the specification, as marked on each
definition.
-/

namespace YbTablet

/-- `HybridTime::kMax`: the largest representable hybrid time (all-ones
64-bit value), used as the "no write in the memstore" marker. -/
def hybridTimeKMax : Nat := 2 ^ 64 - 1

/-- State of `TabletFlushStats` (tablet.h lines 121-151): the atomic flush
counter `num_flushes_` and the atomic `oldest_write_in_memstore_` marker,
both modelled as naturals (`oldest_write_in_memstore` ranges over 64-bit
values, with `hybridTimeKMax` as the empty marker). -/
structure TabletFlushStats where
  num_flushes : Nat
  oldest_write_in_memstore : Nat

/-- Initial `TabletFlushStats`: zero flushes, marker at the all-ones
"empty" value (tablet.h lines 149-150). -/
def TabletFlushStats.init : TabletFlushStats :=
  ⟨0, hybridTimeKMax⟩

/-- `TabletFlushStats::OnFlushScheduled` (tablet.h lines 124-128): store
the maximal 64-bit value into `oldest_write_in_memstore_` and increment
`num_flushes_`. -/
def TabletFlushStats.OnFlushScheduled (s : TabletFlushStats) : TabletFlushStats :=
  ⟨s.num_flushes + 1, hybridTimeKMax⟩

/-- `TabletFlushStats::AboutToWriteToDb` (tablet.h lines 130-136): the
compare-and-swap retry loop
`while (curr_val < prev_val && !cas(prev_val, curr_val)) {}` which, run to
completion, stores `hybrid_time` exactly when it is below the current
marker and otherwise leaves the state untouched. -/
def TabletFlushStats.AboutToWriteToDb (s : TabletFlushStats) (hybrid_time : Nat) :
    TabletFlushStats :=
  if hybrid_time < s.oldest_write_in_memstore then
    ⟨s.num_flushes, hybrid_time⟩
  else
    s

/-- Claim C5: `AboutToWriteToDb` lowers the oldest-unflushed-write marker to
the minimum of its current value and the observed write's timestamp, leaves
the flush counter alone, and in particular a timestamp at or above the
current marker leaves the whole state unchanged. -/
theorem aboutToWriteToDb_takes_min (s : TabletFlushStats) (ht : Nat) :
    (s.AboutToWriteToDb ht).oldest_write_in_memstore =
      min s.oldest_write_in_memstore ht ∧
    (s.AboutToWriteToDb ht).num_flushes = s.num_flushes ∧
    (s.oldest_write_in_memstore ≤ ht → s.AboutToWriteToDb ht = s) := by
  unfold TabletFlushStats.AboutToWriteToDb
  by_cases h : ht < s.oldest_write_in_memstore
  · simp [h, Nat.min_eq_right (Nat.le_of_lt h)]
  · have hle : s.oldest_write_in_memstore ≤ ht := Nat.le_of_not_lt h
    simp [h, Nat.min_eq_left hle]

/-- Concrete instantiation of C5: observing timestamp 7 below marker 10
lowers the marker to 7; the second conjunct's hypothesis is discharged on a
state whose marker 3 is at most the observed 7. -/
theorem aboutToWriteToDb_takes_min_witness :
    ((TabletFlushStats.AboutToWriteToDb ⟨2, 10⟩ 7).oldest_write_in_memstore =
       min 10 7 ∧
     (TabletFlushStats.AboutToWriteToDb ⟨2, 10⟩ 7).num_flushes = 2 ∧
     ((3 : Nat) ≤ 7 → TabletFlushStats.AboutToWriteToDb ⟨5, 3⟩ 7 = ⟨5, 3⟩)) := by
  refine ⟨(aboutToWriteToDb_takes_min ⟨2, 10⟩ 7).1,
          (aboutToWriteToDb_takes_min ⟨2, 10⟩ 7).2.1,
          fun h => (aboutToWriteToDb_takes_min ⟨5, 3⟩ 7).2.2 h⟩

/-- Claim C6: every call to `OnFlushScheduled` resets the
oldest-unflushed-write marker to the empty value (so the getter reports the
maximum hybrid time) and increments the flush counter by exactly one. -/
theorem onFlushScheduled_resets_and_counts (s : TabletFlushStats) :
    s.OnFlushScheduled.oldest_write_in_memstore = hybridTimeKMax ∧
    s.OnFlushScheduled.num_flushes = s.num_flushes + 1 :=
  ⟨rfl, rfl⟩

/-! ## Read-point registry

The tablet tracks active readers in `active_readers_cnt_` (tablet.h line
550), a map from hybrid timestamp to the number of active readers with that
timestamp, here an association list of (timestamp, count) pairs. -/

/-- The reader registry `active_readers_cnt_`. -/
abbrev ReaderMap := List (Nat × Nat)

/-- Modelled from the spec: `Tablet::RegisterReaderTimestamp` (declared at
tablet.h line 479; its body is not in this repository slice) —
"Register(timestamp) increments the reader count for that timestamp
(inserting if absent)". -/
def registerReader : ReaderMap → Nat → ReaderMap
  | [], t => [(t, 1)]
  | (u, c) :: rest, t =>
    if t = u then (u, c + 1) :: rest else (u, c) :: registerReader rest t

/-- Modelled from the spec: `Tablet::UnregisterReader` (declared at
tablet.h line 480; its body is not in this repository slice) —
"Unregister(timestamp) decrements, removing the entry at zero". -/
def unregisterReader : ReaderMap → Nat → ReaderMap
  | [], _ => []
  | (u, c) :: rest, t =>
    if t = u then (if c ≤ 1 then rest else (u, c - 1) :: rest)
    else (u, c) :: unregisterReader rest t

/-- Minimum key of the reader registry, `none` when it is empty (the
underlying `std::map` is ordered by timestamp, so this is its first key). -/
def mapMinKey : ReaderMap → Option Nat
  | [] => none
  | (u, _) :: rest =>
    some (match mapMinKey rest with
          | none => u
          | some v => min u v)

/-- Modelled from the spec: `Tablet::OldestReadPoint` (declared at tablet.h
lines 385-388) — "the timestamp corresponding to the oldest active reader.
If none exists returns the latest timestamp that is safe to read." -/
def oldestReadPoint (m : ReaderMap) (safeTime : Nat) : Nat :=
  match mapMinKey m with
  | none => safeTime
  | some v => v

/-- Total reader count registered for timestamp `t`. -/
def keyCount : ReaderMap → Nat → Nat
  | [], _ => 0
  | (u, c) :: rest, t => (if t = u then c else 0) + keyCount rest t

/-- Registry well-formedness: every entry holds at least one reader. -/
def mapWF (m : ReaderMap) : Prop := ∀ p ∈ m, 1 ≤ p.2

/-- Occurrence count in a plain list of timestamps. -/
def listCount : List Nat → Nat → Nat
  | [], _ => 0
  | u :: rest, t => (if t = u then 1 else 0) + listCount rest t

/-- Remove one occurrence of a timestamp from a list. -/
def listErase : List Nat → Nat → List Nat
  | [], _ => []
  | u :: rest, t => if t = u then rest else u :: listErase rest t

theorem listCount_pos_iff_mem : ∀ (l : List Nat) (t : Nat),
    1 ≤ listCount l t ↔ t ∈ l
  | [], t => by simp [listCount]
  | u :: rest, t => by
    by_cases h : t = u
    · subst h; simp [listCount]
    · simp [listCount, h, listCount_pos_iff_mem rest t]

theorem listCount_erase : ∀ (l : List Nat) (t : Nat), t ∈ l → ∀ (s : Nat),
    listCount (listErase l t) s + (if s = t then 1 else 0) = listCount l s
  | [], t, h, _ => by simp at h
  | u :: rest, t, h, s => by
    by_cases htu : t = u
    · subst htu
      by_cases hst : s = t <;> simp [listErase, listCount, hst] <;> omega
    · have hmem : t ∈ rest := by
        rcases List.mem_cons.mp h with h1 | h2
        · exact absurd h1 htu
        · exact h2
      have ih := listCount_erase rest t hmem s
      simp [listErase, listCount, htu]
      omega

theorem keyCount_registerReader : ∀ (m : ReaderMap) (t s : Nat),
    keyCount (registerReader m t) s = keyCount m s + (if s = t then 1 else 0)
  | [], t, s => by
    by_cases h : s = t <;> simp [registerReader, keyCount, h]
  | (u, c) :: rest, t, s => by
    by_cases htu : t = u
    · subst htu
      by_cases hst : s = t <;> simp [registerReader, keyCount, hst] <;> omega
    · have ih := keyCount_registerReader rest t s
      simp [registerReader, keyCount, htu]
      omega

theorem keyCount_unregisterReader : ∀ (m : ReaderMap), mapWF m → ∀ (t : Nat),
    1 ≤ keyCount m t → ∀ (s : Nat),
    keyCount (unregisterReader m t) s + (if s = t then 1 else 0) = keyCount m s
  | [], _, t, hpos, _ => by simp [keyCount] at hpos
  | (u, c) :: rest, hWF, t, hpos, s => by
    have hc : 1 ≤ c := hWF (u, c) (List.mem_cons_self _ _)
    by_cases htu : t = u
    · subst htu
      by_cases hcle : c ≤ 1
      · have hc1 : c = 1 := Nat.le_antisymm hcle hc
        subst hc1
        by_cases hst : s = t <;> simp [unregisterReader, keyCount, hst] <;> omega
      · by_cases hst : s = t <;>
          simp [unregisterReader, keyCount, hcle, hst] <;> omega
    · have hWFrest : mapWF rest := fun p hp => hWF p (List.mem_cons_of_mem _ hp)
      have hposrest : 1 ≤ keyCount rest t := by
        simp [keyCount, htu] at hpos
        exact hpos
      have ih := keyCount_unregisterReader rest hWFrest t hposrest s
      simp [unregisterReader, keyCount, htu]
      omega

theorem mapWF_registerReader : ∀ (m : ReaderMap), mapWF m → ∀ (t : Nat),
    mapWF (registerReader m t)
  | [], _, t => by
    intro p hp
    simp [registerReader] at hp
    subst hp
    exact Nat.le_refl 1
  | (u, c) :: rest, hWF, t => by
    have hc : 1 ≤ c := hWF (u, c) (List.mem_cons_self _ _)
    have hWFrest : mapWF rest := fun p hp => hWF p (List.mem_cons_of_mem _ hp)
    intro p hp
    by_cases htu : t = u
    · simp [registerReader, htu] at hp
      rcases hp with h1 | h2
      · subst h1; omega
      · exact hWF p (List.mem_cons_of_mem _ h2)
    · simp [registerReader, htu] at hp
      rcases hp with h1 | h2
      · subst h1; exact hc
      · exact mapWF_registerReader rest hWFrest t p h2

theorem mapWF_unregisterReader : ∀ (m : ReaderMap), mapWF m → ∀ (t : Nat),
    mapWF (unregisterReader m t)
  | [], _, t => by intro p hp; simp [unregisterReader] at hp
  | (u, c) :: rest, hWF, t => by
    have hc : 1 ≤ c := hWF (u, c) (List.mem_cons_self _ _)
    have hWFrest : mapWF rest := fun p hp => hWF p (List.mem_cons_of_mem _ hp)
    intro p hp
    by_cases htu : t = u
    · by_cases hcle : c ≤ 1
      · simp [unregisterReader, htu, hcle] at hp
        exact hWFrest p hp
      · simp [unregisterReader, htu, hcle] at hp
        rcases hp with h1 | h2
        · subst h1; omega
        · exact hWFrest p h2
    · simp [unregisterReader, htu] at hp
      rcases hp with h1 | h2
      · subst h1; exact hc
      · exact mapWF_unregisterReader rest hWFrest t p h2

theorem mapMinKey_mem : ∀ (m : ReaderMap) (v : Nat), mapMinKey m = some v →
    ∃ c, (v, c) ∈ m
  | [], v, h => by simp [mapMinKey] at h
  | (u, c) :: rest, v, h => by
    simp [mapMinKey] at h
    cases hrest : mapMinKey rest with
    | none =>
      rw [hrest] at h
      simp at h
      exact ⟨c, by simp [h]⟩
    | some w =>
      rw [hrest] at h
      simp at h
      rcases Nat.le_total u w with hle | hle
      · have : v = u := by omega
        exact ⟨c, by simp [this]⟩
      · have hvw : v = w := by omega
        rcases mapMinKey_mem rest w hrest with ⟨c', hc'⟩
        exact ⟨c', by subst hvw; exact List.mem_cons_of_mem _ hc'⟩

theorem mapMinKey_le : ∀ (m : ReaderMap) (v : Nat), mapMinKey m = some v →
    ∀ p ∈ m, v ≤ p.1
  | [], v, h => by simp [mapMinKey] at h
  | (u, c) :: rest, v, h => by
    simp [mapMinKey] at h
    intro p hp
    rcases List.mem_cons.mp hp with h1 | h2
    · subst h1
      cases hrest : mapMinKey rest with
      | none => rw [hrest] at h; simp at h; omega
      | some w => rw [hrest] at h; simp at h; simp; omega
    · cases hrest : mapMinKey rest with
      | none =>
        have hnil : rest = [] := by
          cases rest with
          | nil => rfl
          | cons q qs => simp [mapMinKey] at hrest
        rw [hnil] at h2
        simp at h2
      | some w =>
        have hw := mapMinKey_le rest w hrest p h2
        rw [hrest] at h
        simp at h
        omega

theorem keyCount_ge_of_mem : ∀ (m : ReaderMap) (t c : Nat), (t, c) ∈ m →
    c ≤ keyCount m t
  | [], t, c, h => by simp at h
  | (u, d) :: rest, t, c, h => by
    rcases List.mem_cons.mp h with h1 | h2
    · have ht : t = u := congrArg Prod.fst h1
      have hc : c = d := congrArg Prod.snd h1
      subst ht; subst hc
      simp [keyCount]
    · have ih := keyCount_ge_of_mem rest t c h2
      by_cases htu : t = u
      · subst htu
        simp [keyCount]
        omega
      · simp [keyCount, htu]
        omega

theorem mem_of_keyCount_pos : ∀ (m : ReaderMap) (t : Nat), 1 ≤ keyCount m t →
    ∃ c, (t, c) ∈ m ∧ 1 ≤ c
  | [], t, h => by simp [keyCount] at h
  | (u, c) :: rest, t, h => by
    by_cases htu : t = u
    · subst htu
      by_cases hc : 1 ≤ c
      · exact ⟨c, List.mem_cons_self _ _, hc⟩
      · have hc0 : c = 0 := by omega
        simp [keyCount, hc0] at h
        rcases mem_of_keyCount_pos rest t h with ⟨c', hmem, hc'⟩
        exact ⟨c', List.mem_cons_of_mem _ hmem, hc'⟩
    · simp [keyCount, htu] at h
      rcases mem_of_keyCount_pos rest t h with ⟨c', hmem, hc'⟩
      exact ⟨c', List.mem_cons_of_mem _ hmem, hc'⟩

/-- A reader-registry event: one reader registering or unregistering a
read point. -/
inductive ReadEvent
  | reg (t : Nat)
  | unreg (t : Nat)

/-- Run a history of registry events against a registry state. -/
def applyEvents (m : ReaderMap) : List ReadEvent → ReaderMap
  | [] => m
  | ReadEvent.reg t :: es => applyEvents (registerReader m t) es
  | ReadEvent.unreg t :: es => applyEvents (unregisterReader m t) es

/-- The bag of read points still active after a history of events,
starting from the active bag `l`. -/
def activeList (l : List Nat) : List ReadEvent → List Nat
  | [] => l
  | ReadEvent.reg t :: es => activeList (t :: l) es
  | ReadEvent.unreg t :: es => activeList (listErase l t) es

/-- A history is well formed when every unregistration matches a read point
active at that moment (as the RAII read guards guarantee). -/
def wfEvents (l : List Nat) : List ReadEvent → Prop
  | [] => True
  | ReadEvent.reg t :: es => wfEvents (t :: l) es
  | ReadEvent.unreg t :: es => t ∈ l ∧ wfEvents (listErase l t) es

/-- The registry represents a bag of active read points: entry counts are
positive and the per-timestamp counts agree with the bag. -/
def represents (m : ReaderMap) (l : List Nat) : Prop :=
  mapWF m ∧ ∀ t, keyCount m t = listCount l t

theorem represents_registerReader (m : ReaderMap) (l : List Nat)
    (h : represents m l) (t : Nat) :
    represents (registerReader m t) (t :: l) := by
  refine ⟨mapWF_registerReader m h.1 t, fun s => ?_⟩
  rw [keyCount_registerReader, h.2 s]
  simp [listCount]
  omega

theorem represents_unregisterReader (m : ReaderMap) (l : List Nat)
    (h : represents m l) (t : Nat) (hmem : t ∈ l) :
    represents (unregisterReader m t) (listErase l t) := by
  have hpos : 1 ≤ keyCount m t := by
    rw [h.2 t]
    exact (listCount_pos_iff_mem l t).mpr hmem
  refine ⟨mapWF_unregisterReader m h.1 t, fun s => ?_⟩
  have h1 := keyCount_unregisterReader m h.1 t hpos s
  have h2 := listCount_erase l t hmem s
  rw [h.2 s] at h1
  omega

theorem represents_applyEvents : ∀ (es : List ReadEvent) (m : ReaderMap)
    (l : List Nat), represents m l → wfEvents l es →
    represents (applyEvents m es) (activeList l es)
  | [], _, _, h, _ => h
  | ReadEvent.reg t :: es, m, l, h, hwf =>
    represents_applyEvents es _ _ (represents_registerReader m l h t) hwf
  | ReadEvent.unreg t :: es, m, l, h, hwf =>
    represents_applyEvents es _ _
      (represents_unregisterReader m l h t hwf.1) hwf.2

theorem oldestReadPoint_of_represents (m : ReaderMap) (l : List Nat)
    (safe : Nat) (h : represents m l) :
    (l = [] → oldestReadPoint m safe = safe) ∧
    (l ≠ [] → oldestReadPoint m safe ∈ l ∧
      ∀ t ∈ l, oldestReadPoint m safe ≤ t) := by
  constructor
  · intro hnil
    have hm : m = [] := by
      cases hm : m with
      | nil => rfl
      | cons p rest =>
        exfalso
        have hc : 1 ≤ p.2 := h.1 p (by rw [hm]; exact List.mem_cons_self _ _)
        have hge : p.2 ≤ keyCount m p.1 := by
          rw [hm]
          exact keyCount_ge_of_mem _ p.1 p.2 (by
            exact List.mem_cons_self _ _)
        have := h.2 p.1
        rw [hnil] at this
        simp [listCount] at this
        omega
    rw [hm]
    rfl
  · intro hne
    cases hl : l with
    | nil => exact absurd hl hne
    | cons t0 rest =>
      have hpos : 1 ≤ keyCount m t0 := by
        rw [h.2 t0, hl]
        simp [listCount]
      have hmne : m ≠ [] := by
        intro hm
        rw [hm] at hpos
        simp [keyCount] at hpos
      obtain ⟨v, hv⟩ : ∃ v, mapMinKey m = some v := by
        cases m with
        | nil => exact absurd rfl hmne
        | cons p ps => exact ⟨_, rfl⟩
      have holdest : oldestReadPoint m safe = v := by
        simp [oldestReadPoint, hv]
      rw [← hl]
      constructor
      · rcases mapMinKey_mem m v hv with ⟨c, hmem⟩
        have hc : 1 ≤ c := h.1 (v, c) hmem
        have hge : c ≤ keyCount m v := keyCount_ge_of_mem m v c hmem
        have hcount : 1 ≤ listCount l v := by
          rw [← h.2 v]
          omega
        rw [holdest]
        exact (listCount_pos_iff_mem l v).mp hcount
      · intro t ht
        have hcount : 1 ≤ keyCount m t := by
          rw [h.2 t]
          exact (listCount_pos_iff_mem l t).mpr ht
        rcases mem_of_keyCount_pos m t hcount with ⟨c, hmem, _⟩
        have := mapMinKey_le m v hv (t, c) hmem
        rw [holdest]
        exact this

/-- Claim C3: for every state of the read-point registry reachable through
a well-formed history of register/unregister events, `OldestReadPoint`
returns the minimum timestamp among the currently registered readers, and
the current safe-to-read timestamp when no reader is registered. -/
theorem oldestReadPoint_spec (es : List ReadEvent) (safe : Nat)
    (hwf : wfEvents [] es) :
    (activeList [] es = [] →
      oldestReadPoint (applyEvents [] es) safe = safe) ∧
    (activeList [] es ≠ [] →
      oldestReadPoint (applyEvents [] es) safe ∈ activeList [] es ∧
      ∀ t ∈ activeList [] es, oldestReadPoint (applyEvents [] es) safe ≤ t) :=
  oldestReadPoint_of_represents _ _ safe
    (represents_applyEvents es [] [] ⟨fun p hp => by simp at hp,
      fun t => rfl⟩ hwf)

/-- A concrete registry history: readers at 5, 3 and 5 register, then one
reader at 5 unregisters. -/
def eventsC3 : List ReadEvent :=
  [ReadEvent.reg 5, ReadEvent.reg 3, ReadEvent.reg 5, ReadEvent.unreg 5]

/-- Concrete instantiation of C3: after the history `eventsC3` the oldest
read point (with safe time 42) is a registered reader and is at most every
registered reader. -/
theorem oldestReadPoint_spec_witness :
    oldestReadPoint (applyEvents [] eventsC3) 42 ∈ activeList [] eventsC3 ∧
    ∀ t ∈ activeList [] eventsC3,
      oldestReadPoint (applyEvents [] eventsC3) 42 ≤ t :=
  (oldestReadPoint_spec eventsC3 42
      (by simp [eventsC3, wfEvents, listErase])).2
    (by simp [eventsC3, activeList, listErase])

/-! ## Scoped read operations

`ScopedReadOperation` (tablet.h lines 630-652) is the RAII guard that
registers a read point on construction and deregisters it on destruction.
The default and move constructors are inline in the header; the
tablet-taking constructor and the destructor are declared only, and are
modelled from the spec. -/

/-- `ScopedReadOperation` (tablet.h lines 632-652): a guard holding a
possibly-null tablet back-pointer `tablet_` and the read time
`read_time_`. -/
structure ScopedReadOperation where
  tablet : Option Nat
  read_time : Nat

/-- Default constructor (tablet.h line 634): `tablet_(nullptr)` with a
default-initialized read time. -/
def ScopedReadOperation.mkDefault : ScopedReadOperation := ⟨none, 0⟩

/-- Move constructor (tablet.h lines 635-638): the new guard copies
`tablet_` and `read_time_` from `rhs`, then `rhs.tablet_ = nullptr`.
Returns (moved-to guard, moved-from guard after the move). -/
def ScopedReadOperation.move (rhs : ScopedReadOperation) :
    ScopedReadOperation × ScopedReadOperation :=
  (⟨rhs.tablet, rhs.read_time⟩, ⟨none, rhs.read_time⟩)

/-- Modelled from the spec: the tablet-taking constructor (declared at
tablet.h line 640; its body is not in this repository slice) — "Grabs and
registers a read point with the tablet when created". Returns the guard
and the registry after registration. -/
def ScopedReadOperation.create (tabletId : Nat) (read_time : Nat)
    (readers : ReaderMap) : ScopedReadOperation × ReaderMap :=
  (⟨some tabletId, read_time⟩, registerReader readers read_time)

/-- Modelled from the spec: the destructor (declared at tablet.h line 645;
its body is not in this repository slice) — "deregisters the read point
when this object is destructed"; a guard whose tablet pointer is null
(default-constructed or moved-from) registered nothing and deregisters
nothing. -/
def ScopedReadOperation.destroy (g : ScopedReadOperation)
    (readers : ReaderMap) : ReaderMap :=
  match g.tablet with
  | some _ => unregisterReader readers g.read_time
  | none => readers

theorem unregisterReader_registerReader : ∀ (m : ReaderMap), mapWF m →
    ∀ (t : Nat), unregisterReader (registerReader m t) t = m
  | [], _, t => by simp [registerReader, unregisterReader]
  | (u, c) :: rest, hWF, t => by
    have hc : 1 ≤ c := hWF (u, c) (List.mem_cons_self _ _)
    have hWFrest : mapWF rest := fun p hp => hWF p (List.mem_cons_of_mem _ hp)
    by_cases htu : t = u
    · subst htu
      have : ¬ c + 1 ≤ 1 := by omega
      simp [registerReader, unregisterReader, this]
    · simp [registerReader, unregisterReader, htu,
        unregisterReader_registerReader rest hWFrest t]

/-- Claim C4: constructing a `ScopedReadOperation` registers its read point
(the registered timestamp's reader count rises by exactly one and no other
count changes), and destroying the guard unregisters that read point
exactly once, restoring the registry to its prior state. -/
theorem scopedReadOperation_balanced (m : ReaderMap) (hWF : mapWF m)
    (tid rt : Nat) :
    keyCount (ScopedReadOperation.create tid rt m).2 rt = keyCount m rt + 1 ∧
    (∀ s, s ≠ rt →
      keyCount (ScopedReadOperation.create tid rt m).2 s = keyCount m s) ∧
    (ScopedReadOperation.create tid rt m).1.destroy
        (ScopedReadOperation.create tid rt m).2 = m := by
  refine ⟨?_, ?_, ?_⟩
  · rw [show (ScopedReadOperation.create tid rt m).2 = registerReader m rt
      from rfl]
    rw [keyCount_registerReader]
    simp
  · intro s hs
    rw [show (ScopedReadOperation.create tid rt m).2 = registerReader m rt
      from rfl]
    rw [keyCount_registerReader]
    simp [hs]
  · show unregisterReader (registerReader m rt) rt = m
    exact unregisterReader_registerReader m hWF rt

/-- Concrete instantiation of C4: on the well-formed registry `[(7, 2)]`,
creating a guard at read time 7 raises the count at 7 from 2 to 3, leaves
the count at 9 unchanged, and destroying the guard restores the registry. -/
theorem scopedReadOperation_balanced_witness :
    keyCount (ScopedReadOperation.create 1 7 [(7, 2)]).2 7 =
      keyCount [(7, 2)] 7 + 1 ∧
    keyCount (ScopedReadOperation.create 1 7 [(7, 2)]).2 9 =
      keyCount [(7, 2)] 9 ∧
    (ScopedReadOperation.create 1 7 [(7, 2)]).1.destroy
        (ScopedReadOperation.create 1 7 [(7, 2)]).2 = [(7, 2)] := by
  have h := scopedReadOperation_balanced [(7, 2)] (by
    intro p hp
    simp at hp
    subst hp
    omega) 1 7
  exact ⟨h.1, h.2.1 9 (by omega), h.2.2⟩

/-- Claim C10: moving a `ScopedReadOperation` transfers ownership of the
registered read point: the moved-from guard's tablet pointer is null, so
destroying it (or a default-constructed guard) leaves the registry
untouched, while destroying the moved-to guard performs the single
unregistration that balances the construction. -/
theorem scopedReadOperation_move_transfers (m : ReaderMap) (hWF : mapWF m)
    (tid rt : Nat) :
    ((ScopedReadOperation.create tid rt m).1.move.2.tablet = none) ∧
    (∀ readers : ReaderMap,
      ((ScopedReadOperation.create tid rt m).1.move.2).destroy readers =
        readers) ∧
    (∀ readers : ReaderMap,
      ScopedReadOperation.mkDefault.destroy readers = readers) ∧
    (((ScopedReadOperation.create tid rt m).1.move.1).destroy
        (ScopedReadOperation.create tid rt m).2 = m) := by
  refine ⟨rfl, fun readers => rfl, fun readers => rfl, ?_⟩
  show unregisterReader (registerReader m rt) rt = m
  exact unregisterReader_registerReader m hWF rt

/-- Concrete instantiation of C10: on the registry `[(3, 1)]`, moving the
guard created at read time 4 nulls the source's tablet pointer, destroying
the moved-from guard changes nothing, and destroying the moved-to guard
restores the original registry. -/
theorem scopedReadOperation_move_transfers_witness :
    ((ScopedReadOperation.create 2 4 [(3, 1)]).1.move.2.tablet = none) ∧
    ((ScopedReadOperation.create 2 4 [(3, 1)]).1.move.2).destroy
        [(3, 1), (4, 1)] = [(3, 1), (4, 1)] ∧
    ScopedReadOperation.mkDefault.destroy [(3, 1)] = [(3, 1)] ∧
    (((ScopedReadOperation.create 2 4 [(3, 1)]).1.move.1).destroy
        (ScopedReadOperation.create 2 4 [(3, 1)]).2 = [(3, 1)]) := by
  have h := scopedReadOperation_move_transfers [(3, 1)] (by
    intro p hp
    simp at hp
    subst hp
    omega) 2 4
  exact ⟨h.1, h.2.1 [(3, 1), (4, 1)], h.2.2.1 [(3, 1)], h.2.2.2⟩

/-! ## Lifecycle and shutdown

The tablet rejects new operations once shutdown is requested
(`shutdown_requested_`, tablet.h line 595) and `Shutdown()` (declared at
line 196) waits for the pending-operation counter `pending_op_counter_`
(lines 604-610) to reach zero before tearing down the RocksDB handle.
Only the declarations are in this repository slice, so the protocol is
modelled from the spec as a state machine. -/

/-- Shutdown-protocol state: the `shutdown_requested_` flag, the
`pending_op_counter_` value, and whether teardown of the store handle has
begun. -/
structure ShutdownState where
  shutdownRequested : Bool
  pendingOps : Nat
  tornDown : Bool

/-- Initial shutdown-protocol state. -/
def shutdownInit : ShutdownState := ⟨false, 0, false⟩

/-- Modelled from the spec: the shutdown protocol around
`Tablet::Shutdown` — an operation is admitted (taking its scoped increment
of `pending_op_counter_`) only while shutdown has not been requested and
teardown has not begun; an admitted operation eventually releases its
increment; the flag can be set at any time; teardown requires the flag set
and the counter at exactly zero. -/
inductive ShutdownStep : ShutdownState → ShutdownState → Prop
  | startOp (s : ShutdownState) :
      s.shutdownRequested = false → s.tornDown = false →
      ShutdownStep s ⟨false, s.pendingOps + 1, false⟩
  | finishOp (s : ShutdownState) :
      1 ≤ s.pendingOps →
      ShutdownStep s ⟨s.shutdownRequested, s.pendingOps - 1, s.tornDown⟩
  | requestShutdown (s : ShutdownState) :
      ShutdownStep s ⟨true, s.pendingOps, s.tornDown⟩
  | teardown (s : ShutdownState) :
      s.shutdownRequested = true → s.pendingOps = 0 →
      ShutdownStep s ⟨true, 0, true⟩

/-- Shutdown-protocol states reachable from the initial state. -/
inductive ShutdownReach : ShutdownState → Prop
  | init : ShutdownReach shutdownInit
  | step {s t : ShutdownState} :
      ShutdownReach s → ShutdownStep s t → ShutdownReach t

/-- Claim C2: in every reachable state in which teardown has begun, the
pending-operation counter is exactly zero and the shutdown flag is set,
and from such a state no step admits a new operation or revives a pending
one — no operation touches the store after teardown begins. -/
theorem shutdown_drains (s : ShutdownState) (h : ShutdownReach s) :
    (s.tornDown = true → s.pendingOps = 0 ∧ s.shutdownRequested = true) ∧
    (∀ t, ShutdownStep s t → s.tornDown = true →
      t.tornDown = true ∧ t.pendingOps = 0) := by
  induction h with
  | init =>
    constructor
    · intro h
      simp [shutdownInit] at h
    · intro t _ h
      simp [shutdownInit] at h
  | step hr hstep ih =>
    have hinv : ∀ u, ShutdownReach u →
        (u.tornDown = true → u.pendingOps = 0 ∧ u.shutdownRequested = true) →
        ∀ t, ShutdownStep u t → u.tornDown = true →
        t.tornDown = true ∧ t.pendingOps = 0 := by
      intro u _ hu t hstep' htorn
      rcases hu htorn with ⟨hp, hf⟩
      cases hstep' with
      | startOp h1 h2 => rw [htorn] at h2; cases h2
      | finishOp hge => omega
      | requestShutdown => exact ⟨htorn, hp⟩
      | teardown h1 h2 => exact ⟨rfl, rfl⟩
    have hfirst :
        ∀ {u t : ShutdownState}, ShutdownStep u t →
        (u.tornDown = true → u.pendingOps = 0 ∧ u.shutdownRequested = true) →
        t.tornDown = true → t.pendingOps = 0 ∧ t.shutdownRequested = true := by
      intro u t hstep' hu htorn
      cases hstep' with
      | startOp h1 h2 => cases htorn
      | finishOp hge =>
        rcases hu htorn with ⟨hp, hf⟩
        exact ⟨by omega, hf⟩
      | requestShutdown =>
        exact ⟨(hu htorn).1, rfl⟩
      | teardown h1 h2 => exact ⟨rfl, rfl⟩
    refine ⟨hfirst hstep ih.1, ?_⟩
    intro t hstep' htorn
    exact hinv _ (ShutdownReach.step hr hstep) (hfirst hstep ih.1) t hstep' htorn

/-- Concrete instantiation of C2: the torn-down state reached by admitting
one operation, finishing it, requesting shutdown and tearing down has a
zero pending-operation counter and the shutdown flag set. -/
theorem shutdown_drains_witness :
    (⟨true, 0, true⟩ : ShutdownState).pendingOps = 0 ∧
    (⟨true, 0, true⟩ : ShutdownState).shutdownRequested = true := by
  have h0 := ShutdownReach.init
  have h1 := ShutdownReach.step h0 (ShutdownStep.startOp shutdownInit rfl rfl)
  have h2 := ShutdownReach.step h1 (ShutdownStep.finishOp _ (by decide))
  have h3 := ShutdownReach.step h2 (ShutdownStep.requestShutdown _)
  have h4 := ShutdownReach.step h3 (ShutdownStep.teardown _ rfl rfl)
  exact (shutdown_drains _ h4).1 rfl

/-! ## Lifecycle state machine -/

/-- `Tablet::State` (tablet.h lines 566-572). -/
inductive TabletState
  | kInitialized
  | kBootstrapping
  | kOpen
  | kShutdown

/-- Position of a lifecycle state along the linear order
kInitialized, kBootstrapping, kOpen, kShutdown (the declaration order of
the `State` enumerators). -/
def TabletState.rank : TabletState → Nat
  | TabletState.kInitialized => 0
  | TabletState.kBootstrapping => 1
  | TabletState.kOpen => 2
  | TabletState.kShutdown => 3

/-- Modelled from the spec: the lifecycle transitions — `Open()` moves
kInitialized to kBootstrapping (tablet.h lines 181-183, "Upon completion,
the tablet enters the kBootstrapping state"), `MarkFinishedBootstrapping()`
moves kBootstrapping to kOpen (lines 185-187), and `Shutdown()` moves any
state to kShutdown. -/
inductive TabletTrans : TabletState → TabletState → Prop
  | openTablet :
      TabletTrans TabletState.kInitialized TabletState.kBootstrapping
  | markFinishedBootstrapping :
      TabletTrans TabletState.kBootstrapping TabletState.kOpen
  | shutdown (s : TabletState) : TabletTrans s TabletState.kShutdown

/-- Multi-step lifecycle reachability. -/
def TabletReach : TabletState → TabletState → Prop :=
  Relation.ReflTransGen TabletTrans

/-- Claim C9: the lifecycle state machine is linear with no cycles — every
transition moves the rank forward, strictly so except for the
kShutdown-to-kShutdown self-transition of `Shutdown()`, and two mutually
reachable states are equal. -/
theorem tablet_lifecycle_linear :
    (∀ s t, TabletTrans s t → TabletState.rank s ≤ TabletState.rank t) ∧
    (∀ s t, TabletTrans s t → s ≠ TabletState.kShutdown →
      TabletState.rank s < TabletState.rank t) ∧
    (∀ s t, TabletReach s t → TabletReach t s → s = t) := by
  have hmono : ∀ s t, TabletTrans s t →
      TabletState.rank s ≤ TabletState.rank t := by
    intro s t h
    cases h with
    | openTablet => exact Nat.le_succ 0
    | markFinishedBootstrapping => exact Nat.le_succ 1
    | shutdown s => cases s <;> simp [TabletState.rank]
  have hreach : ∀ s t, TabletReach s t →
      TabletState.rank s ≤ TabletState.rank t := by
    intro s t h
    induction h with
    | refl => exact Nat.le_refl _
    | tail hab hbc ih => exact Nat.le_trans ih (hmono _ _ hbc)
  refine ⟨hmono, ?_, ?_⟩
  · intro s t h hne
    cases h with
    | openTablet => exact Nat.lt_succ_self 0
    | markFinishedBootstrapping => exact Nat.lt_succ_self 1
    | shutdown s =>
      cases s with
      | kInitialized => simp [TabletState.rank]
      | kBootstrapping => simp [TabletState.rank]
      | kOpen => simp [TabletState.rank]
      | kShutdown => exact absurd rfl hne
  · intro s t h1 h2
    have ha := hreach s t h1
    have hb := hreach t s h2
    have hrk : TabletState.rank s = TabletState.rank t :=
      Nat.le_antisymm ha hb
    cases s <;> cases t <;> simp_all [TabletState.rank]

/-- Concrete instantiation of C9: the `Open()` transition moves the rank
strictly forward, and kOpen reaches kShutdown but not conversely without
collapsing — here, mutual reachability of kOpen with itself gives
equality. -/
theorem tablet_lifecycle_linear_witness :
    TabletState.rank TabletState.kInitialized <
      TabletState.rank TabletState.kBootstrapping ∧
    TabletState.kOpen = TabletState.kOpen := by
  constructor
  · exact tablet_lifecycle_linear.2.1 _ _ TabletTrans.openTablet (by
      intro h
      cases h)
  · exact tablet_lifecycle_linear.2.2 _ _ Relation.ReflTransGen.refl
      Relation.ReflTransGen.refl

/-! ## Shared lock manager

`shared_lock_manager_` (tablet.h line 588) provides the fine-grained
per-key locking used by `AcquireLocksAndPerformDocOperations` and the
`KeyValueBatchFrom*WriteBatch` family (tablet.h lines 248-258, 379-381):
a write acquires the locks for all keys it touches, returned as a
`LockBatch`, and releases them after commit.  Only declarations are in
this repository slice, so the protocol is modelled from the spec. -/

/-- Pointwise function update. -/
def upd {α : Type} (f : Nat → α) (w : Nat) (v : α) : Nat → α :=
  fun x => if x = w then v else f x

/-- Lock-manager state: the holder of each encoded key, and whether each
write operation currently holds its LockBatch. -/
structure LockState where
  owner : Nat → Option Nat
  holding : Nat → Bool

/-- Initial lock-manager state: no key held, no operation holding. -/
def lockInit : LockState := ⟨fun _ => none, fun _ => false⟩

/-- Effect of operation `w` acquiring its LockBatch: every key in its key
set becomes owned by `w`. -/
def doLockAcquire (keysOf : Nat → List Nat) (s : LockState) (w : Nat) :
    LockState :=
  ⟨fun k => if k ∈ keysOf w then some w else s.owner k,
   upd s.holding w true⟩

/-- Effect of operation `w` releasing its LockBatch. -/
def doLockRelease (keysOf : Nat → List Nat) (s : LockState) (w : Nat) :
    LockState :=
  ⟨fun k => if k ∈ keysOf w then none else s.owner k,
   upd s.holding w false⟩

/-- Modelled from the spec: the `SharedLockManager` protocol (§4.2) —
"Acquire(keys) -> LockBatch, blocking until all requested key-ranges are
held": an acquire completes only when every requested key is free, and
then takes all of them atomically; "Release(LockBatch) releases all held
locks". -/
inductive LockStep (keysOf : Nat → List Nat) : LockState → LockState → Prop
  | acquire (s : LockState) (w : Nat) :
      s.holding w = false → (∀ k ∈ keysOf w, s.owner k = none) →
      LockStep keysOf s (doLockAcquire keysOf s w)
  | release (s : LockState) (w : Nat) :
      s.holding w = true →
      LockStep keysOf s (doLockRelease keysOf s w)

/-- Lock-manager states reachable from the initial state. -/
inductive LockReach (keysOf : Nat → List Nat) : LockState → Prop
  | init : LockReach keysOf lockInit
  | step {s t : LockState} :
      LockReach keysOf s → LockStep keysOf s t → LockReach keysOf t

/-- An operation holding its LockBatch owns every key in its key set. -/
def LockInv (keysOf : Nat → List Nat) (s : LockState) : Prop :=
  ∀ w, s.holding w = true → ∀ k ∈ keysOf w, s.owner k = some w

theorem lockReach_inv (keysOf : Nat → List Nat) (s : LockState)
    (h : LockReach keysOf s) : LockInv keysOf s := by
  induction h with
  | init =>
    intro w hw k hk
    exact absurd hw (by simp [lockInit])
  | @step s1 t1 hr hstep ih =>
    cases hstep with
    | acquire w hfree hkeys =>
      intro v hv k hk
      by_cases hvw : v = w
      · subst hvw
        simp [doLockAcquire, hk]
      · have hsv : s1.holding v = true := by
          simpa [doLockAcquire, upd, hvw] using hv
        have hov := ih v hsv k hk
        by_cases hkw : k ∈ keysOf w
        · have hnone := hkeys k hkw
          rw [hov] at hnone
          simp at hnone
        · simp [doLockAcquire, hkw, hov]
    | release w hw =>
      intro v hv k hk
      by_cases hvw : v = w
      · subst hvw
        simp [doLockRelease, upd] at hv
      · have hsv : s1.holding v = true := by
          simpa [doLockRelease, upd, hvw] using hv
        have hov := ih v hsv k hk
        by_cases hkw : k ∈ keysOf w
        · have how := ih w hw k hkw
          rw [hov] at how
          simp at how
          exact absurd how hvw
        · simp [doLockRelease, hkw, hov]

/-- Two write operations whose key sets both want key 0. -/
def sharedKeysC8 : Nat → List Nat := fun _ => [0]

/-- Two write operations with disjoint key sets: operation `w` locks
key `w`. -/
def disjointKeysC8 : Nat → List Nat := fun w => [w]

/-- Claim C8: two concurrent write operations whose key sets intersect
never hold their LockBatches at the same time (in every reachable
lock-manager state, two holders sharing a key are the same operation),
while two operations with disjoint key sets can both hold their
LockBatches concurrently (witnessed by a reachable state). -/
theorem lockBatch_mutual_exclusion :
    (∀ (keysOf : Nat → List Nat) (s : LockState) (w1 w2 k : Nat),
      LockReach keysOf s → s.holding w1 = true → s.holding w2 = true →
      k ∈ keysOf w1 → k ∈ keysOf w2 → w1 = w2) ∧
    (∃ s : LockState, LockReach disjointKeysC8 s ∧
      s.holding 0 = true ∧ s.holding 1 = true) := by
  constructor
  · intro keysOf s w1 w2 k hreach h1 h2 hk1 hk2
    have hinv := lockReach_inv keysOf s hreach
    have ho1 := hinv w1 h1 k hk1
    have ho2 := hinv w2 h2 k hk2
    rw [ho1] at ho2
    exact Option.some.inj ho2
  · refine ⟨doLockAcquire disjointKeysC8
      (doLockAcquire disjointKeysC8 lockInit 0) 1, ?_, ?_, ?_⟩
    · exact LockReach.step
        (LockReach.step LockReach.init
          (LockStep.acquire lockInit 0 rfl (by decide)))
        (LockStep.acquire (doLockAcquire disjointKeysC8 lockInit 0) 1
          (by decide) (by decide))
    · decide
    · decide

/-- Concrete instantiation of C8's exclusion half: in the reachable state
where operation 0 holds key 0 under `sharedKeysC8`, any two holders of the
shared key coincide — instantiated at operations 0 and 0. -/
theorem lockBatch_mutual_exclusion_witness : (0 : Nat) = 0 :=
  lockBatch_mutual_exclusion.1 sharedKeysC8
    (doLockAcquire sharedKeysC8 lockInit 0) 0 0 0
    (LockReach.step LockReach.init
      (LockStep.acquire lockInit 0 rfl (by decide)))
    (by decide) (by decide) (by decide) (by decide)

/-! ## Consistent iterator capture

`CaptureConsistentIterators` (tablet.h lines 441-453) is declared with the
contract "They will include all data that was present at the time of
creation, and potentially newer data"; `NewRowIterator` (lines 310-316)
takes an `MvccSnapshot` and an `OrderMode` (lines 305-308).  The bodies
are not in this repository slice, so capture is modelled from the spec. -/

/-- A versioned key-value entry of the store. -/
structure DbEntry where
  key : Nat
  ts : Nat
  value : Nat
deriving DecidableEq

/-- An MVCC snapshot: the commit frontier at capture time.  A write is
visible in the snapshot iff its timestamp is committed at or before the
frontier; a write committed after the snapshot has a larger timestamp. -/
structure MvccSnapshot where
  committedUpTo : Nat
deriving DecidableEq

/-- Visibility of a timestamp in a snapshot. -/
def MvccSnapshot.isVisible (snap : MvccSnapshot) (ts : Nat) : Prop :=
  ts ≤ snap.committedUpTo

instance instDecidableIsVisible (snap : MvccSnapshot) (ts : Nat) :
    Decidable (snap.isVisible ts) :=
  Nat.decLe ts snap.committedUpTo

/-- `Tablet::OrderMode` (tablet.h lines 305-308). -/
inductive OrderMode
  | UNORDERED
  | ORDERED

/-- Modelled from the spec: `Tablet::CaptureConsistentIterators` under an
ordering mode (§4.6) — the captured iterators "cover all data present at
the time of capture (potentially including data written after capture ...
except when ordering mode demands exact consistency)": with ORDERED the
capture is bounded by the snapshot's commit frontier, with UNORDERED it is
the present data plus possibly newer writes.  `present` holds the entries
in the tablet at capture time, `concurrent` the entries committed while
the iterators live. -/
def captureConsistentIterators (mode : OrderMode) (snap : MvccSnapshot)
    (present concurrent : List DbEntry) : List DbEntry :=
  match mode with
  | OrderMode.ORDERED =>
    (present ++ concurrent).filter
      (fun e => decide (snap.isVisible e.ts))
  | OrderMode.UNORDERED => present ++ concurrent

/-- Claim C7: an iterator captured under snapshot `snap` in ORDERED mode
never observes a write invisible in the snapshot (in particular none
committed after it), while an UNORDERED capture contains at least every
entry present at capture time. -/
theorem captureConsistentIterators_snapshot (snap : MvccSnapshot)
    (present concurrent : List DbEntry) :
    (∀ e ∈ captureConsistentIterators OrderMode.ORDERED snap
        present concurrent, snap.isVisible e.ts) ∧
    (∀ e ∈ present,
      e ∈ captureConsistentIterators OrderMode.UNORDERED snap
        present concurrent) := by
  constructor
  · intro e he
    have hmem := List.of_mem_filter he
    exact of_decide_eq_true hmem
  · intro e he
    exact List.mem_append_left _ he

/-- Concrete instantiation of C7: under snapshot frontier 10, the ORDERED
capture of a present write at timestamp 5 with a concurrent write at
timestamp 12 observes the visible entry, and the UNORDERED capture keeps
the present entry. -/
theorem captureConsistentIterators_snapshot_witness :
    MvccSnapshot.isVisible ⟨10⟩ (DbEntry.mk 1 5 100).ts ∧
    DbEntry.mk 1 5 100 ∈ captureConsistentIterators OrderMode.UNORDERED
      ⟨10⟩ [DbEntry.mk 1 5 100] [DbEntry.mk 1 12 200] := by
  constructor
  · exact (captureConsistentIterators_snapshot ⟨10⟩
      [DbEntry.mk 1 5 100] [DbEntry.mk 1 12 200]).1
      (DbEntry.mk 1 5 100) (by decide)
  · exact (captureConsistentIterators_snapshot ⟨10⟩
      [DbEntry.mk 1 5 100] [DbEntry.mk 1 12 200]).2
      (DbEntry.mk 1 5 100) (by decide)

/-! ## MVCC write pipeline

`Tablet::StartOperation` (tablet.h lines 202-228) reserves the write's
MVCC timestamp and, per its header comment, "should always be done
_after_ any relevant row locks are acquired ... This ensures that, within
each row, timestamps only move forward."  The body is not in this
repository slice, so the write pipeline is modelled from the spec: each
write acquires its row lock, then reserves a timestamp strictly greater
than every previously reserved one (monotonic counter), then applies and
releases.  Writes are identified by naturals; `key w` is the row written
by write `w`. -/

/-- Global state of the write pipeline.  `pc w` is write `w`'s progress:
0 = not started, 1 = row lock acquired, 2 = MVCC timestamp reserved
(`StartOperation` done), 3 = applied and lock released.  `applySeq` lists
the applied writes in replication/apply order. -/
structure MvccState where
  counter : Nat
  pc : Nat → Nat
  ts : Nat → Nat
  lockHeld : Nat → Option Nat
  applySeq : List Nat

/-- Initial write-pipeline state. -/
def mvccInit : MvccState := ⟨0, fun _ => 0, fun _ => 0, fun _ => none, []⟩

/-- Write `w` acquires the row lock for its key. -/
def doAcquireRowLock (key : Nat → Nat) (s : MvccState) (w : Nat) :
    MvccState :=
  ⟨s.counter, upd s.pc w 1, s.ts, upd s.lockHeld (key w) (some w),
   s.applySeq⟩

/-- Write `w` runs `StartOperation`: the MVCC manager hands out the next
counter value as its timestamp, strictly greater than every timestamp
reserved before. -/
def doStartOperation (s : MvccState) (w : Nat) : MvccState :=
  ⟨s.counter + 1, upd s.pc w 2, upd s.ts w (s.counter + 1), s.lockHeld,
   s.applySeq⟩

/-- Write `w` is applied (appended to the replication/apply order) and its
row lock is released. -/
def doApplyAndRelease (key : Nat → Nat) (s : MvccState) (w : Nat) :
    MvccState :=
  ⟨s.counter, upd s.pc w 3, s.ts, upd s.lockHeld (key w) none,
   s.applySeq ++ [w]⟩

/-- Modelled from the spec: the write pipeline around
`Tablet::StartOperation` — a write may acquire its row lock only when the
lock is free, may reserve its MVCC timestamp (`StartOperation`) only while
holding its row lock (the lock-before-timestamp rule of tablet.h lines
202-228), and applies and releases only after its timestamp is
reserved. -/
inductive WriteStep (key : Nat → Nat) : MvccState → MvccState → Prop
  | acquireRowLock (s : MvccState) (w : Nat) :
      s.pc w = 0 → s.lockHeld (key w) = none →
      WriteStep key s (doAcquireRowLock key s w)
  | startOperation (s : MvccState) (w : Nat) :
      s.pc w = 1 → s.lockHeld (key w) = some w →
      WriteStep key s (doStartOperation s w)
  | applyAndRelease (s : MvccState) (w : Nat) :
      s.pc w = 2 → s.lockHeld (key w) = some w →
      WriteStep key s (doApplyAndRelease key s w)

/-- Write-pipeline states reachable from the initial state by any
interleaving of writers. -/
inductive WriteReach (key : Nat → Nat) : MvccState → Prop
  | init : WriteReach key mvccInit
  | step {s t : MvccState} :
      WriteReach key s → WriteStep key s t → WriteReach key t

/-- Inductive invariant of the write pipeline: applied writes are finished;
reserved timestamps never exceed the counter; a write between lock
acquisition and apply owns its row lock; an applied write's timestamp is
below that of any same-key write still holding a reserved timestamp; and
applied same-key writes are strictly timestamp-ordered. -/
def MvccInv (key : Nat → Nat) (s : MvccState) : Prop :=
  (∀ w ∈ s.applySeq, s.pc w = 3) ∧
  (∀ w, 2 ≤ s.pc w → s.ts w ≤ s.counter) ∧
  (∀ w, (s.pc w = 1 ∨ s.pc w = 2) → s.lockHeld (key w) = some w) ∧
  (∀ w1 ∈ s.applySeq, ∀ w2, s.pc w2 = 2 → key w2 = key w1 →
    s.ts w1 < s.ts w2) ∧
  s.applySeq.Pairwise (fun a b => key a = key b → s.ts a < s.ts b)

theorem pairwise_ts_congr (key f g : Nat → Nat) :
    ∀ (l : List Nat), (∀ a ∈ l, g a = f a) →
    l.Pairwise (fun a b => key a = key b → f a < f b) →
    l.Pairwise (fun a b => key a = key b → g a < g b)
  | [], _, _ => List.Pairwise.nil
  | a :: l, hfg, h => by
    cases h with
    | cons ha hl =>
      refine List.Pairwise.cons ?_ (pairwise_ts_congr key f g l ?_ hl)
      · intro b hb hkk
        rw [hfg a (List.mem_cons_self _ _),
            hfg b (List.mem_cons_of_mem _ hb)]
        exact ha b hb hkk
      · intro b hb
        exact hfg b (List.mem_cons_of_mem _ hb)

theorem writeReach_inv (key : Nat → Nat) (s : MvccState)
    (h : WriteReach key s) : MvccInv key s := by
  induction h with
  | init =>
    refine ⟨?_, ?_, ?_, ?_, ?_⟩
    · intro w hw; simp [mvccInit] at hw
    · intro w hw; simp [mvccInit] at hw
    · intro w hw; simp [mvccInit] at hw
    · intro w1 hw1; simp [mvccInit] at hw1
    · simp [mvccInit]
  | @step s1 t1 hr hstep ih =>
    obtain ⟨ih1, ih2, ih3, ih4, ih5⟩ := ih
    cases hstep with
    | acquireRowLock w h0 hfree =>
      refine ⟨?_, ?_, ?_, ?_, ?_⟩
      · intro v hv
        simp [doAcquireRowLock] at hv
        have hv3 := ih1 v hv
        have hvw : v ≠ w := by
          intro he
          rw [he, h0] at hv3
          omega
        simp [doAcquireRowLock, upd, hvw]
        exact hv3
      · intro v hv
        by_cases hvw : v = w
        · subst hvw
          simp [doAcquireRowLock, upd] at hv
        · simp [doAcquireRowLock, upd, hvw] at hv ⊢
          exact ih2 v hv
      · intro v hv
        by_cases hvw : v = w
        · subst hvw
          simp [doAcquireRowLock, upd]
        · simp [doAcquireRowLock, upd, hvw] at hv
          have hvlock := ih3 v hv
          by_cases hkk : key v = key w
          · exfalso
            rw [hkk, hfree] at hvlock
            exact Option.noConfusion hvlock
          · simp [doAcquireRowLock, upd, hkk]
            exact hvlock
      · intro w1 hw1 w2 h2pc hkk
        by_cases hvw : w2 = w
        · subst hvw
          simp [doAcquireRowLock, upd] at h2pc
        · simp [doAcquireRowLock, upd, hvw] at h2pc
          simp [doAcquireRowLock] at hw1 ⊢
          exact ih4 w1 hw1 w2 h2pc hkk
      · simpa [doAcquireRowLock] using ih5
    | startOperation w h1 hlock =>
      refine ⟨?_, ?_, ?_, ?_, ?_⟩
      · intro v hv
        simp [doStartOperation] at hv
        have hv3 := ih1 v hv
        have hvw : v ≠ w := by
          intro he
          rw [he, h1] at hv3
          omega
        simp [doStartOperation, upd, hvw]
        exact hv3
      · intro v hv
        by_cases hvw : v = w
        · subst hvw
          simp [doStartOperation, upd]
        · simp [doStartOperation, upd, hvw] at hv ⊢
          have := ih2 v hv
          omega
      · intro v hv
        by_cases hvw : v = w
        · subst hvw
          simp [doStartOperation, upd]
          exact hlock
        · simp [doStartOperation, upd, hvw] at hv ⊢
          exact ih3 v hv
      · intro w1 hw1 w2 h2pc hkk
        simp [doStartOperation] at hw1
        have h13 := ih1 w1 hw1
        have h1w : w1 ≠ w := by
          intro he
          rw [he, h1] at h13
          omega
        by_cases hvw : w2 = w
        · subst hvw
          have hle := ih2 w1 (by rw [h13]; omega)
          simp [doStartOperation, upd, h1w]
          omega
        · simp [doStartOperation, upd, hvw, h1w] at h2pc ⊢
          exact ih4 w1 hw1 w2 h2pc hkk
      · have hts : ∀ a ∈ s1.applySeq,
            upd s1.ts w (s1.counter + 1) a = s1.ts a := by
          intro a ha
          have ha3 := ih1 a ha
          have haw : a ≠ w := by
            intro he
            rw [he, h1] at ha3
            omega
          simp [upd, haw]
        simp only [doStartOperation]
        exact pairwise_ts_congr key s1.ts (upd s1.ts w (s1.counter + 1))
          s1.applySeq hts ih5
    | applyAndRelease w h2 hlock =>
      refine ⟨?_, ?_, ?_, ?_, ?_⟩
      · intro v hv
        simp [doApplyAndRelease] at hv
        rcases hv with hv | hv
        · have hv3 := ih1 v hv
          have hvw : v ≠ w := by
            intro he
            rw [he, h2] at hv3
            omega
          simp [doApplyAndRelease, upd, hvw]
          exact hv3
        · subst hv
          simp [doApplyAndRelease, upd]
      · intro v hv
        by_cases hvw : v = w
        · subst hvw
          simp [doApplyAndRelease, upd]
          exact ih2 v (by omega)
        · simp [doApplyAndRelease, upd, hvw] at hv ⊢
          exact ih2 v hv
      · intro v hv
        have hvw : v ≠ w := by
          intro he
          subst he
          simp [doApplyAndRelease, upd] at hv
        simp [doApplyAndRelease, upd, hvw] at hv
        have hvlock := ih3 v hv
        by_cases hkk : key v = key w
        · exfalso
          rw [hkk, hlock] at hvlock
          exact hvw (Option.some.inj hvlock).symm
        · simp [doApplyAndRelease, upd, hkk]
          exact hvlock
      · intro w1 hw1 w2 h2pc hkk
        have hw2w : w2 ≠ w := by
          intro he
          subst he
          simp [doApplyAndRelease, upd] at h2pc
        simp [doApplyAndRelease, upd, hw2w] at h2pc
        simp [doApplyAndRelease] at hw1 ⊢
        rcases hw1 with hw1 | hw1
        · exact ih4 w1 hw1 w2 h2pc hkk
        · subst hw1
          exfalso
          have hl2 := ih3 w2 (Or.inr h2pc)
          rw [hkk, hlock] at hl2
          exact hw2w (Option.some.inj hl2).symm
      · simp only [doApplyAndRelease]
        rw [List.pairwise_append]
        refine ⟨ih5, by simp, ?_⟩
        intro a ha b hb
        simp at hb
        subst hb
        intro hkk
        exact ih4 a ha b h2 hkk.symm

/-- Claim C1: in every reachable state of the write pipeline — where each
write's MVCC timestamp is reserved by `StartOperation` strictly after its
row lock is acquired — the writes applied to any one key, taken in
replication/apply order, carry strictly increasing (hence non-decreasing)
MVCC timestamps. -/
theorem startOperation_per_key_monotonic (key : Nat → Nat) (s : MvccState)
    (h : WriteReach key s) :
    s.applySeq.Pairwise
      (fun w1 w2 => key w1 = key w2 → s.ts w1 < s.ts w2) :=
  (writeReach_inv key s h).2.2.2.2

/-- Both writers 0 and 1 target the same key 5. -/
def keyC1 : Nat → Nat := fun _ => 5

/-- A complete two-writer same-key execution: writer 0 locks, reserves its
timestamp and applies; then writer 1 does the same. -/
def mvccTraceC1 : MvccState :=
  doApplyAndRelease keyC1
    (doStartOperation
      (doAcquireRowLock keyC1
        (doApplyAndRelease keyC1
          (doStartOperation (doAcquireRowLock keyC1 mvccInit 0) 0) 0)
        1) 1) 1

/-- Concrete instantiation of C1: after the two-writer same-key execution
`mvccTraceC1`, the applied writes are timestamp-ordered per key. -/
theorem startOperation_per_key_monotonic_witness :
    mvccTraceC1.applySeq.Pairwise
      (fun w1 w2 => keyC1 w1 = keyC1 w2 →
        mvccTraceC1.ts w1 < mvccTraceC1.ts w2) :=
  startOperation_per_key_monotonic keyC1 mvccTraceC1
    (WriteReach.step
      (WriteReach.step
        (WriteReach.step
          (WriteReach.step
            (WriteReach.step
              (WriteReach.step WriteReach.init
                (WriteStep.acquireRowLock mvccInit 0 rfl rfl))
              (WriteStep.startOperation _ 0 (by decide) (by decide)))
            (WriteStep.applyAndRelease _ 0 (by decide) (by decide)))
          (WriteStep.acquireRowLock _ 1 (by decide) (by decide)))
        (WriteStep.startOperation _ 1 (by decide) (by decide)))
      (WriteStep.applyAndRelease _ 1 (by decide) (by decide)))

end YbTablet
